import Mathlib

/-!
# Verification of the gocrawler repository

Shallow embedding of `gocrawler.go` (a depth-bounded concurrent web
crawler) together with proofs about it.

The development has two parts.

* The fetch side (`getHref`, `isFile`, `fetchLoop`, `fetchGo`) embeds the
  concrete `fetcher.Fetch` method: the HTML-token scan that collects the
  title and the outbound `href` links of a page, filters file suffixes and
  non-http links, and aborts once the global crawl counter exceeds the
  configured maximum.

* The orchestrator side (`Config`, `Step`, `Reach`) embeds the concurrent
  `Crawl` functions as a small-step transition system over configurations:
  the shared visited map (seeded with the start URL and mutated only
  inside the channel-guarded dispatch section), one task per spawned
  goroutine, the per-parent completion counting, and the `done` signal
  observed by the top-level `Crawl`.  The fetcher is abstracted as an
  oracle `String → Option (List String)`, matching the `Fetcher`
  interface of the source.
-/

namespace GoCrawler

/-! ## Fetch side: embedding of `fetcher.Fetch`, `getHref`, `isFile` -/

/-- One token of the HTML token stream produced by `html.NewTokenizer`.
`start name attrs` is a `StartTagToken` with tag name `name` and
attribute list `attrs`; `text` is a `TextToken`; `other` is any other
token kind (end tags, comments, self-closing tags, ...), which the Go
loop skips.  The end of the list plays the role of `ErrorToken`. -/
inductive Tok where
  | start (name : String) (attrs : List (String × String))
  | text (s : String)
  | other
deriving DecidableEq, Repr

/-- Embedding of `getHref`: iterate over the attributes and keep the value
of the last attribute whose key is `href`; `none` when there is no
`href` attribute (the Go version returns `ok = false`). -/
def getHref (attrs : List (String × String)) : Option String :=
  attrs.foldl (fun acc a => if a.1 = "href" then some a.2 else acc) none

/-- The file-suffix list of `isFile` in the source, in source order. -/
def files : List String :=
  [".pdf", ".zip", ".jpeg", ".jpg", ".gif", ".png", ".doc", ".docx",
   ".rar", ".gzip", ".tar", ".mp3", ".wav", ".mpg", ".mpeg", ".swf",
   ".exe", ".bin"]

/-- Embedding of `strings.HasSuffix(s, sfx)` on the character lists of the
strings. -/
def hasSuffixGo (s sfx : String) : Bool :=
  List.isSuffixOf sfx.toList s.toList

/-- Embedding of `strings.Index(u, "http") == 0`: the link filter of
`fetcher.Fetch` keeps exactly the hrefs whose character list starts with
`http`. -/
def startsHttp (u : String) : Bool :=
  List.isPrefixOf "http".toList u.toList

/-- Embedding of `isFile`: true when the url ends with one of the file
suffixes of `files`. -/
def isFile (url : String) : Bool :=
  files.any (fun f => hasSuffixGo url f)

/-- Result of the token-scanning loop of `fetcher.Fetch`: the collected
`title`, the accepted outbound `urls`, the updated global counter
`count` (the `countCrawled` variable), and whether the loop aborted
because the counter exceeded the maximum. -/
structure LoopOut where
  title : String
  urls : List String
  count : Int
  aborted : Bool
deriving DecidableEq, Repr

/-- Embedding of the body of the `case "a"` branch of `fetcher.Fetch`
(lines 188 to 204 of the source): given the `href` of the tag (if any),
the accepted urls so far and the global counter, returns the updated
urls, the updated counter, and whether the `countCrawled > *maxURLS`
abort fired.  No href, a non-http href, or a file href leave the state
unchanged; the abort check happens first, before the file filter. -/
def linkAccept (mx : Int) (ho : Option String) (urls : List String) (count : Int) :
    List String × Int × Bool :=
  match ho with
  | none => (urls, count, false)
  | some u =>
    if startsHttp u then
      if count > mx then (urls, count, true)
      else if isFile u then (urls, count, false)
      else (urls ++ [u], count + 1, false)
    else (urls, count, false)

/-- Embedding of the token loop of `fetcher.Fetch`.  `mx` is `*maxURLS`;
`title`, `urls`, `count` are the loop state (`count` is the global
`countCrawled`).  The Boolean argument records that the previous token
was a `title` start tag, whose branch calls `z.Next()` and consumes the
following token, keeping it as the new title exactly when it is a text
token.  An `a` start tag runs `linkAccept` on its href and either aborts
(returning the state collected so far) or continues with the updated
state. -/
def fetchLoop (mx : Int) : List Tok → Bool → String → List String → Int → LoopOut
  | [], _, title, urls, count => ⟨title, urls, count, false⟩
  | Tok.text s :: rest, true, _, urls, count => fetchLoop mx rest false s urls count
  | Tok.start _ _ :: rest, true, title, urls, count =>
    fetchLoop mx rest false title urls count
  | Tok.other :: rest, true, title, urls, count =>
    fetchLoop mx rest false title urls count
  | Tok.start name attrs :: rest, false, title, urls, count =>
    if name = "a" then
      if (linkAccept mx (getHref attrs) urls count).2.2 then ⟨title, urls, count, true⟩
      else
        fetchLoop mx rest false title (linkAccept mx (getHref attrs) urls count).1
          (linkAccept mx (getHref attrs) urls count).2.1
    else if name = "title" then fetchLoop mx rest true title urls count
    else fetchLoop mx rest false title urls count
  | Tok.text _ :: rest, false, title, urls, count =>
    fetchLoop mx rest false title urls count
  | Tok.other :: rest, false, title, urls, count =>
    fetchLoop mx rest false title urls count

/-- Observable outcome of one call of `fetcher.Fetch`: `res` is the
returned url list (`none` for the `nil, error` returns), `stored` is the
`(title, urls)` pair written to the shared results map `f[url]` (`none`
when nothing is written), `count` is the global counter afterwards. -/
structure FetchOut where
  res : Option (List String)
  stored : Option (String × List String)
  count : Int
deriving DecidableEq, Repr

/-- Embedding of `fetcher.Fetch`.  `page = none` models a failing
`http.Get` (return `nil, error` without touching the results map);
otherwise the token loop runs and the result is stored in the shared
map both on the abort path and on the normal path; only the abort path
returns an error with a nil url list. -/
def fetchGo (mx : Int) (page : Option (List Tok)) (count : Int) : FetchOut :=
  match page with
  | none => ⟨none, none, count⟩
  | some toks =>
    let o := fetchLoop mx toks false "" [] count
    if o.aborted then ⟨none, some (o.title, o.urls), o.count⟩
    else ⟨some o.urls, some (o.title, o.urls), o.count⟩

/-! ## Orchestrator side: embedding of `Crawl` and `(*crawlHistory).Crawl` -/

/-- Lifecycle phase of one crawl goroutine.  `running` is the task before
it has looked at its depth and fetched; `waiting p` is the task after
its dispatch loop, still expecting `p` completion signals from its
children (the `for ; count > 0; count--` loop; the depth-exhausted and
fetch-error exits are `waiting 0`); `signaled` is the task after its
final `done <- true`. -/
inductive Phase where
  | running
  | waiting (pending : Nat)
  | signaled
deriving DecidableEq, Repr

/-- One crawl goroutine: its url, its remaining depth (a Go `int`), the
index of the task that spawned it (`none` for the root task spawned by
the top-level `Crawl`, which signals on the buffered `done` channel),
and its phase.  The parent index identifies the `doneHere` channel the
task will signal on. -/
structure Task where
  url : String
  depth : Int
  parent : Option Nat
  phase : Phase
deriving DecidableEq, Repr

/-- A configuration of one top-level `Crawl` invocation: the visited map
(the `map[string]bool` travelling on `mapAccess`, as the list of keys
marked true), the list of all goroutines spawned so far (index = spawn
order), the log of urls passed to `Fetch` so far, and whether the root
has signaled the top-level `done` channel (after which `Crawl`
returns). -/
structure Config where
  visited : List String
  tasks : List Task
  fetched : List String
  rootDone : Bool

/-- Embedding of the dispatch loop
`for _, u := range urls { if !m[u] { m[u] = true; count++; go ... } }`:
given the map `m` and the fetched url list, returns the updated map and
the list of urls for which a child goroutine is spawned, in loop
order. -/
def dispatchAcc : List String → List String → List String × List String
  | m, [] => (m, [])
  | m, u :: rest =>
    if u ∈ m then dispatchAcc m rest
    else
      let r := dispatchAcc (u :: m) rest
      (r.1, u :: r.2)

/-- The child task spawned by `go c.Crawl(u, depth-1, doneHere)` from the
task at index `i`. -/
def mkChild (i : Nat) (dep : Int) (u : String) : Task :=
  ⟨u, dep, some i, Phase.running⟩

/-- Configuration after the depth-exhausted exit (`depth <= 0`) of task
`i`: the task moves to `waiting 0` (its only remaining action is its
`done <- true`). -/
def leafCfg (s : Config) (i : Nat) (t : Task) : Config :=
  { s with tasks := s.tasks.set i { t with phase := Phase.waiting 0 } }

/-- Configuration after a failing `c.Fetch(url)` of task `i`: the url was
passed to `Fetch`, the error is dropped on the floor, and the task moves
to `waiting 0` without touching the visited map or spawning anyone. -/
def failCfg (s : Config) (i : Nat) (t : Task) : Config :=
  { s with tasks := s.tasks.set i { t with phase := Phase.waiting 0 },
           fetched := s.fetched ++ [t.url] }

/-- Configuration after a successful fetch and the guarded dispatch loop
of task `i`: the visited map is extended with the newly discovered urls,
one child at depth `t.depth - 1` is appended per such url, and the task
waits for that many signals. -/
def dispatchCfg (s : Config) (i : Nat) (t : Task) (urls : List String) : Config :=
  { visited := (dispatchAcc s.visited urls).1,
    tasks :=
      (s.tasks.set i { t with phase := Phase.waiting (dispatchAcc s.visited urls).2.length })
        ++ (dispatchAcc s.visited urls).2.map (mkChild i (t.depth - 1)),
    fetched := s.fetched ++ [t.url],
    rootDone := s.rootDone }

/-- Configuration after the rendezvous of the `done <- true` of child `i`
with one `<-doneHere` iteration of its parent `j`: the child becomes
`signaled`, the parent has one signal fewer to wait for. -/
def sigCfg (s : Config) (i : Nat) (t : Task) (j : Nat) (pt : Task) (p : Nat) : Config :=
  let ts := (s.tasks.set i { t with phase := Phase.signaled }).set j
    { pt with phase := Phase.waiting p }
  { s with tasks := ts }

/-- Configuration after the root task signals the buffered `done` channel
of the top-level `Crawl`: after this the top-level call returns. -/
def rootCfg (s : Config) (i : Nat) (t : Task) : Config :=
  { s with tasks := s.tasks.set i { t with phase := Phase.signaled },
           rootDone := true }

/-- Small-step transition relation of one invocation, indexed by the
abstract fetcher (`Fetcher.Fetch` as an oracle: `none` = error) and by
the index of the acting task.  The five steps are the `depth <= 0`
exit, the fetch-error exit, the successful fetch followed by the
channel-guarded dispatch loop (the task holds the map token for the
whole loop, so the loop is one atomic step), a child/parent completion
rendezvous, and the root signaling the top-level caller. -/
inductive Step (fetch : String → Option (List String)) : Config → Nat → Config → Prop
  | leaf : ∀ s i t, s.tasks[i]? = some t → t.phase = Phase.running →
      t.depth ≤ 0 → Step fetch s i (leafCfg s i t)
  | fetchFail : ∀ s i t, s.tasks[i]? = some t → t.phase = Phase.running →
      0 < t.depth → fetch t.url = none → Step fetch s i (failCfg s i t)
  | fetchOk : ∀ s i t urls, s.tasks[i]? = some t → t.phase = Phase.running →
      0 < t.depth → fetch t.url = some urls → Step fetch s i (dispatchCfg s i t urls)
  | signalChild : ∀ s i t j pt p, s.tasks[i]? = some t →
      t.phase = Phase.waiting 0 → t.parent = some j → s.tasks[j]? = some pt →
      pt.phase = Phase.waiting (p + 1) → Step fetch s i (sigCfg s i t j pt p)
  | signalRoot : ∀ s i t, s.tasks[i]? = some t →
      t.phase = Phase.waiting 0 → t.parent = none → Step fetch s i (rootCfg s i t)

/-- Initial configuration of `Crawl(url, depth, fetcher)`: the map on the
`mapAccess` channel is seeded `{url: true}` before the root goroutine is
called, and the root task is the direct call `c.Crawl(url, depth, done)`
with the top-level caller as parent. -/
def init (url : String) (depth : Int) : Config :=
  { visited := [url],
    tasks := [⟨url, depth, none, Phase.running⟩],
    fetched := [],
    rootDone := false }

/-- Reachability of a configuration during the invocation
`Crawl(url, depth, fetcher)`: some interleaving of task steps leads from
the initial configuration to it. -/
def Reach (fetch : String → Option (List String)) (url : String) (depth : Int)
    (s : Config) : Prop :=
  Relation.ReflTransGen (fun a b => ∃ i, Step fetch a i b) (init url depth) s

/-- Urls reachable from `start` in exactly `k` fetch hops under the
fetcher oracle; used to state the depth bound. -/
inductive ReachIn (fetch : String → Option (List String)) (start : String) :
    Nat → String → Prop
  | zero : ReachIn fetch start 0 start
  | succ : ∀ k u l v, ReachIn fetch start k u → fetch u = some l → v ∈ l →
      ReachIn fetch start (k + 1) v

/-- `unsig i c` holds when `c` is a child of the task at index `i` that
has not yet sent its completion signal on the `doneHere` channel of
`i`. -/
def unsig (i : Nat) (c : Task) : Bool :=
  decide (c.parent = some i ∧ c.phase ≠ Phase.signaled)

/-- Number of children of the task at index `i` that have not yet
signaled; the fan-in invariant ties this to the `pending` field of a
waiting task. -/
def pendingOf (ts : List Task) (i : Nat) : Nat :=
  ts.countP (unsig i)

/-- Fan-in invariant of the completion-signal protocol, over the task
list and the root-done flag of a configuration: parents precede their
children in spawn order, only index 0 has the top-level caller as
parent, the `pending` count of a waiting task is exactly the number of
its children that have not signaled, a task that has not dispatched yet
has no children, a signaled task has only signaled children, and the
top-level `done` channel has been signaled only by a signaled root. -/
structure InvA (ts : List Task) (rd : Bool) : Prop where
  parentLt : ∀ (i : Nat) (t : Task) (j : Nat),
    ts[i]? = some t → t.parent = some j → j < i
  rootIdx : ∀ (i : Nat) (t : Task), ts[i]? = some t → t.parent = none → i = 0
  pending : ∀ (i : Nat) (t : Task) (p : Nat),
    ts[i]? = some t → t.phase = Phase.waiting p → p = pendingOf ts i
  runNoChild : ∀ (i : Nat) (t : Task), ts[i]? = some t → t.phase = Phase.running →
    ∀ (k : Nat) (c : Task), ts[k]? = some c → c.parent ≠ some i
  sigChild : ∀ (i : Nat) (t : Task), ts[i]? = some t → t.phase = Phase.signaled →
    ∀ (k : Nat) (c : Task), ts[k]? = some c → c.parent = some i →
      c.phase = Phase.signaled
  rootSig : rd = true → ∀ (t : Task), ts[0]? = some t → t.phase = Phase.signaled

/-- A fetcher oracle for which every url is unreachable (every `http.Get`
fails). -/
def fetchNone : String → Option (List String) := fun _ => none

/-- A fetcher oracle with one edge: page `a` links to `b`, every other
page is unreachable. -/
def fetchAB : String → Option (List String) :=
  fun v => if v = "a" then some ["b"] else none

/-- Configuration after the root task of `Crawl("a", 0, ...)` takes its
depth-exhausted exit. -/
def cfgA1 : Config := leafCfg (init "a" 0) 0 ⟨"a", 0, none, Phase.running⟩

/-- Configuration after that root task then signals the top-level
caller. -/
def cfgA2 : Config := rootCfg cfgA1 0 ⟨"a", 0, none, Phase.waiting 0⟩

/-- Configuration after the root task of `Crawl("a", 1, fetchAB)` fetches
`a` and dispatches a child for the newly discovered `b`. -/
def cfgB1 : Config := dispatchCfg (init "a" 1) 0 ⟨"a", 1, none, Phase.running⟩ ["b"]

/-- Configuration after the root task of `Crawl("a", 1, fetchNone)` takes
its fetch-error exit. -/
def cfgF1 : Config := failCfg (init "a" 1) 0 ⟨"a", 1, none, Phase.running⟩

/-- A page with two distinct non-file http links. -/
def pageTwoLinks : List Tok :=
  [Tok.start "a" [("href", "http://a")], Tok.start "a" [("href", "http://b")]]

/-- A page with the same non-file http link twice. -/
def pageDupLink : List Tok :=
  [Tok.start "a" [("href", "http://a")], Tok.start "a" [("href", "http://a")]]

/-- A page with one non-file http link. -/
def pageOneLink : List Tok := [Tok.start "a" [("href", "http://b")]]

/-- A page whose only link is the scheme-less relative href
`httpdocs/a`, which nevertheless begins with the characters `http`. -/
def pageRelLink : List Tok := [Tok.start "a" [("href", "httpdocs/a")]]

/-- A page whose only link ends in the filtered suffix `.pdf`. -/
def pagePdfLink : List Tok := [Tok.start "a" [("href", "http://x.pdf")]]

/-- Deduplication invariant: every task was claimed in the visited map
before it started, distinct tasks crawl distinct urls, the fetch log is
inside the visited map, a task that has not fetched yet is not in the
fetch log, and no url was ever passed to `Fetch` twice. -/
structure InvB (s : Config) : Prop where
  taskVisited : ∀ (i : Nat) (t : Task), s.tasks[i]? = some t → t.url ∈ s.visited
  urlsDistinct : ∀ (i j : Nat) (ti tj : Task), s.tasks[i]? = some ti →
    s.tasks[j]? = some tj → i ≠ j → ti.url ≠ tj.url
  fetchedVisited : ∀ u ∈ s.fetched, u ∈ s.visited
  runNotFetched : ∀ (i : Nat) (t : Task), s.tasks[i]? = some t →
    t.phase = Phase.running → t.url ∉ s.fetched
  fetchedNodup : s.fetched.Nodup

/-- Depth invariant: every task sits at some hop distance `k` from the
start url with remaining depth exactly `d - k`; every visited url other
than the start was discovered within depth, and every fetched url was
fetched strictly within depth. -/
structure InvC (fetch : String → Option (List String)) (start : String) (d : Int)
    (s : Config) : Prop where
  taskReach : ∀ (i : Nat) (t : Task), s.tasks[i]? = some t →
    ∃ k : Nat, ReachIn fetch start k t.url ∧ t.depth = d - k
  visitedReach : ∀ u ∈ s.visited, u = start ∨
    ∃ k : Nat, ReachIn fetch start k u ∧ 0 < (k : Int) ∧ (k : Int) ≤ d
  fetchedReach : ∀ u ∈ s.fetched, ∃ k : Nat, ReachIn fetch start k u ∧ (k : Int) < d

/-! ## Helper lemmas -/

theorem getElem?_some_lt {α : Type _} {l : List α} {i : Nat} {a : α}
    (h : l[i]? = some a) : i < l.length := by
  rcases List.getElem?_eq_some.mp h with ⟨h1, _⟩
  exact h1

theorem set_getElem?_cases {α : Type _} {l : List α} {i : Nat} {a b : α} {k : Nat}
    (h : (l.set i a)[k]? = some b) (hi : i < l.length) :
    (k = i ∧ b = a) ∨ (k ≠ i ∧ l[k]? = some b) := by
  by_cases hk : k = i
  · subst hk
    rw [List.getElem?_set_self hi] at h
    exact Or.inl ⟨rfl, (Option.some.inj h).symm⟩
  · right
    refine ⟨hk, ?_⟩
    rwa [List.getElem?_set_ne (fun he => hk he.symm)] at h

theorem dispatchAcc_mem_fst :
    ∀ (urls m : List String) (x : String),
      x ∈ (dispatchAcc m urls).1 ↔ x ∈ m ∨ x ∈ (dispatchAcc m urls).2 := by
  intro urls
  induction urls with
  | nil => intro m x; simp [dispatchAcc]
  | cons u rest ih =>
    intro m x
    simp only [dispatchAcc]
    split
    · exact ih m x
    · rw [ih]
      simp only [List.mem_cons]
      tauto

theorem dispatchAcc_mem_of_mem (urls m : List String) (x : String) (h : x ∈ m) :
    x ∈ (dispatchAcc m urls).1 :=
  (dispatchAcc_mem_fst urls m x).mpr (Or.inl h)

theorem dispatchAcc_snd_not_mem :
    ∀ (urls m : List String), ∀ u ∈ (dispatchAcc m urls).2, u ∉ m := by
  intro urls
  induction urls with
  | nil => intro m u h; simp [dispatchAcc] at h
  | cons v rest ih =>
    intro m u h
    simp only [dispatchAcc] at h
    split at h
    · exact ih m u h
    · rename_i hv
      rcases List.mem_cons.mp h with h | h
      · subst h; exact hv
      · intro hm
        exact ih (v :: m) u h (List.mem_cons.mpr (Or.inr hm))

theorem dispatchAcc_snd_nodup :
    ∀ (urls m : List String), (dispatchAcc m urls).2.Nodup := by
  intro urls
  induction urls with
  | nil => intro m; simp [dispatchAcc]
  | cons v rest ih =>
    intro m
    simp only [dispatchAcc]
    split
    · exact ih m
    · refine List.nodup_cons.mpr ⟨?_, ih (v :: m)⟩
      intro hmem
      exact dispatchAcc_snd_not_mem rest (v :: m) v hmem (List.mem_cons.mpr (Or.inl rfl))

theorem dispatchAcc_snd_sub :
    ∀ (urls m : List String), ∀ u ∈ (dispatchAcc m urls).2, u ∈ urls := by
  intro urls
  induction urls with
  | nil => intro m u h; simp [dispatchAcc] at h
  | cons v rest ih =>
    intro m u h
    simp only [dispatchAcc] at h
    split at h
    · exact List.mem_cons.mpr (Or.inr (ih m u h))
    · rcases List.mem_cons.mp h with h | h
      · exact List.mem_cons.mpr (Or.inl h)
      · exact List.mem_cons.mpr (Or.inr (ih (v :: m) u h))

theorem countP_set_same (p : α → Bool) :
    ∀ (l : List α) (i : Nat) (a b : α), l[i]? = some b → p a = p b →
      (l.set i a).countP p = l.countP p := by
  intro l
  induction l with
  | nil => intro i a b h _; simp at h
  | cons x xs ih =>
    intro i a b h hp
    cases i with
    | zero =>
      simp only [List.getElem?_cons_zero, Option.some.injEq] at h
      subst h
      simp [List.set_cons_zero, List.countP_cons, hp]
    | succ n =>
      simp only [List.getElem?_cons_succ] at h
      simp [List.set_cons_succ, List.countP_cons, ih n a b h hp]

theorem countP_set_dec (p : α → Bool) :
    ∀ (l : List α) (i : Nat) (a b : α), l[i]? = some b → p b = true → p a = false →
      l.countP p = (l.set i a).countP p + 1 := by
  intro l
  induction l with
  | nil => intro i a b h _ _; simp at h
  | cons x xs ih =>
    intro i a b h hb ha
    cases i with
    | zero =>
      simp only [List.getElem?_cons_zero, Option.some.injEq] at h
      subst h
      simp [List.set_cons_zero, List.countP_cons, hb, ha]
    | succ n =>
      simp only [List.getElem?_cons_succ] at h
      simp only [List.set_cons_succ, List.countP_cons]
      rw [ih n a b h hb ha]
      omega

theorem pendingOf_eq_zero {ts : List Task} {k : Nat} :
    pendingOf ts k = 0 ↔ ∀ c ∈ ts, c.parent = some k → c.phase = Phase.signaled := by
  rw [pendingOf, List.countP_eq_zero]
  constructor
  · intro h c hc hp
    have h2 := h c hc
    simp only [unsig, decide_eq_true_eq] at h2
    by_contra hph
    exact h2 ⟨hp, hph⟩
  · intro h c hc
    simp only [unsig, decide_eq_true_eq]
    rintro ⟨hp, hph⟩
    exact hph (h c hc hp)

theorem pendingOf_append (ts cs : List Task) (k : Nat) :
    pendingOf (ts ++ cs) k = pendingOf ts k + cs.countP (unsig k) := by
  simp [pendingOf, List.countP_append]

theorem invA_init (url : String) (d : Int) :
    InvA [⟨url, d, none, Phase.running⟩] false := by
  constructor
  · intro i t j hi hp
    cases i with
    | zero =>
      simp only [List.getElem?_cons_zero, Option.some.injEq] at hi
      subst hi
      simp at hp
    | succ n => simp at hi
  · intro i t hi _
    cases i with
    | zero => rfl
    | succ n => simp at hi
  · intro i t p hi hp
    cases i with
    | zero =>
      simp only [List.getElem?_cons_zero, Option.some.injEq] at hi
      subst hi
      simp at hp
    | succ n => simp at hi
  · intro i t hi _ k c hk
    cases k with
    | zero =>
      simp only [List.getElem?_cons_zero, Option.some.injEq] at hk
      subst hk
      simp
    | succ n => simp at hk
  · intro i t hi hs k c hk hp
    cases i with
    | zero =>
      simp only [List.getElem?_cons_zero, Option.some.injEq] at hi
      subst hi
      simp at hs
    | succ n => simp at hi
  · intro h
    cases h

theorem invA_wait0 {ts : List Task} {rd : Bool} {i : Nat} {t : Task}
    (inv : InvA ts rd) (hget : ts[i]? = some t) (hrun : t.phase = Phase.running) :
    InvA (ts.set i { t with phase := Phase.waiting 0 }) rd := by
  have hlen : i < ts.length := getElem?_some_lt hget
  constructor
  · intro k c j hk hp
    rcases set_getElem?_cases hk hlen with ⟨rfl, rfl⟩ | ⟨hne, hk2⟩
    · exact inv.parentLt k t j hget hp
    · exact inv.parentLt k c j hk2 hp
  · intro k c hk hp
    rcases set_getElem?_cases hk hlen with ⟨rfl, rfl⟩ | ⟨hne, hk2⟩
    · exact inv.rootIdx k t hget hp
    · exact inv.rootIdx k c hk2 hp
  · intro k c p hk hp
    have hpend_eq : ∀ m, pendingOf (ts.set i { t with phase := Phase.waiting 0 }) m
        = pendingOf ts m := by
      intro m
      exact countP_set_same _ ts i _ t hget (by simp [unsig, hrun])
    rcases set_getElem?_cases hk hlen with ⟨rfl, rfl⟩ | ⟨hne, hk2⟩
    · have hp0 : Phase.waiting 0 = Phase.waiting p := hp
      injection hp0 with hp0
      subst hp0
      rw [hpend_eq]
      symm
      rw [pendingOf_eq_zero]
      intro c hc hcp
      rcases List.mem_iff_getElem?.mp hc with ⟨m, hm⟩
      exact absurd hcp (inv.runNoChild k t hget hrun m c hm)
    · rw [hpend_eq]
      exact inv.pending k c p hk2 hp
  · intro k c hk hcrun m e hm
    rcases set_getElem?_cases hk hlen with ⟨rfl, rfl⟩ | ⟨hne, hk2⟩
    · exact absurd hcrun (by simp)
    · rcases set_getElem?_cases hm hlen with ⟨rfl, rfl⟩ | ⟨hne2, hm2⟩
      · exact inv.runNoChild k c hk2 hcrun m t hget
      · exact inv.runNoChild k c hk2 hcrun m e hm2
  · intro k c hk hsig m e hm hpar
    rcases set_getElem?_cases hk hlen with ⟨rfl, rfl⟩ | ⟨hne, hk2⟩
    · exact absurd hsig (by simp)
    · rcases set_getElem?_cases hm hlen with ⟨rfl, rfl⟩ | ⟨hne2, hm2⟩
      · exfalso
        have h2 := inv.sigChild k c hk2 hsig m t hget hpar
        rw [hrun] at h2
        exact Phase.noConfusion h2
      · exact inv.sigChild k c hk2 hsig m e hm2 hpar
  · intro hrd c hc
    have hi0 : i ≠ 0 := by
      intro h0
      subst h0
      have h2 := inv.rootSig hrd t hget
      rw [hrun] at h2
      exact Phase.noConfusion h2
    rw [List.getElem?_set_ne hi0] at hc
    exact inv.rootSig hrd c hc

theorem dispatch_getElem?_cases {ts : List Task} {i : Nat} {t2 : Task} {sp : List String}
    {dep : Int} {k : Nat} {c : Task} (hlen : i < ts.length)
    (h : (ts.set i t2 ++ sp.map (mkChild i dep))[k]? = some c) :
    (k = i ∧ c = t2) ∨ (k ≠ i ∧ k < ts.length ∧ ts[k]? = some c) ∨
      (ts.length ≤ k ∧ ∃ u, sp[k - ts.length]? = some u ∧ c = mkChild i dep u) := by
  by_cases hk : k < ts.length
  · rw [List.getElem?_append_left (by simpa using hk)] at h
    rcases set_getElem?_cases h hlen with ⟨h1, h2⟩ | ⟨hne, hk2⟩
    · exact Or.inl ⟨h1, h2⟩
    · exact Or.inr (Or.inl ⟨hne, hk, hk2⟩)
  · push_neg at hk
    rw [List.getElem?_append_right (by simpa using hk)] at h
    simp only [List.getElem?_map, List.length_set] at h
    rcases Option.map_eq_some'.mp h with ⟨u, hu, h2⟩
    exact Or.inr (Or.inr ⟨hk, u, hu, h2.symm⟩)

theorem invA_dispatch {ts : List Task} {rd : Bool} {i : Nat} {t : Task}
    (inv : InvA ts rd) (hget : ts[i]? = some t) (hrun : t.phase = Phase.running)
    (sp : List String) (dep : Int) :
    InvA (ts.set i { t with phase := Phase.waiting sp.length }
      ++ sp.map (mkChild i dep)) rd := by
  have hlen : i < ts.length := getElem?_some_lt hget
  have hcs_self : (sp.map (mkChild i dep)).countP (unsig i)
      = (sp.map (mkChild i dep)).length := by
    rw [List.countP_eq_length]
    intro c hc
    rcases List.mem_map.mp hc with ⟨u, hu, h2⟩
    subst h2
    simp [unsig, mkChild]
  have hcs_other : ∀ k, k ≠ i → (sp.map (mkChild i dep)).countP (unsig k) = 0 := by
    intro k hk
    rw [List.countP_eq_zero]
    intro c hc
    rcases List.mem_map.mp hc with ⟨u, hu, h2⟩
    subst h2
    simp only [unsig, mkChild, decide_eq_true_eq]
    rintro ⟨h1, _⟩
    exact hk (Option.some.inj h1).symm
  have hset_same : ∀ k, pendingOf (ts.set i { t with phase := Phase.waiting sp.length }) k
      = pendingOf ts k := by
    intro k
    exact countP_set_same _ ts i _ t hget (by simp [unsig, hrun])
  have hpend_i_zero : pendingOf ts i = 0 := by
    rw [pendingOf_eq_zero]
    intro c hc hcp
    rcases List.mem_iff_getElem?.mp hc with ⟨m, hm⟩
    exact absurd hcp (inv.runNoChild i t hget hrun m c hm)
  constructor
  · intro k c j hk hp
    rcases dispatch_getElem?_cases hlen hk with ⟨rfl, rfl⟩ | ⟨hne, hklt, hk2⟩ |
      ⟨hge, u, hu, rfl⟩
    · exact inv.parentLt k t j hget hp
    · exact inv.parentLt k c j hk2 hp
    · have h1 : i = j := Option.some.inj hp
      omega
  · intro k c hk hp
    rcases dispatch_getElem?_cases hlen hk with ⟨rfl, rfl⟩ | ⟨hne, hklt, hk2⟩ |
      ⟨hge, u, hu, rfl⟩
    · exact inv.rootIdx k t hget hp
    · exact inv.rootIdx k c hk2 hp
    · exact Option.noConfusion hp
  · intro k c p hk hp
    rcases dispatch_getElem?_cases hlen hk with ⟨rfl, rfl⟩ | ⟨hne, hklt, hk2⟩ |
      ⟨hge, u, hu, rfl⟩
    · have hp0 : Phase.waiting sp.length = Phase.waiting p := hp
      injection hp0 with hp0
      subst hp0
      rw [pendingOf_append, hset_same, hpend_i_zero, hcs_self, List.length_map]
      omega
    · rw [pendingOf_append, hset_same, hcs_other k hne]
      have h2 := inv.pending k c p hk2 hp
      omega
    · exact Phase.noConfusion hp
  · intro k c hk hcrun m e hm
    rcases dispatch_getElem?_cases hlen hk with ⟨rfl, rfl⟩ | ⟨hne, hklt, hk2⟩ |
      ⟨hge, u, hu, rfl⟩
    · exact absurd hcrun (by simp)
    · rcases dispatch_getElem?_cases hlen hm with ⟨rfl, rfl⟩ | ⟨hne2, hmlt, hm2⟩ |
        ⟨hge2, v, hv, rfl⟩
      · exact inv.runNoChild k c hk2 hcrun m t hget
      · exact inv.runNoChild k c hk2 hcrun m e hm2
      · intro hp
        exact hne (Option.some.inj hp).symm
    · rcases dispatch_getElem?_cases hlen hm with ⟨rfl, rfl⟩ | ⟨hne2, hmlt, hm2⟩ |
        ⟨hge2, v, hv, rfl⟩
      · intro hp
        have h2 := inv.parentLt m t k hget hp
        omega
      · intro hp
        have h2 := inv.parentLt m e k hm2 hp
        omega
      · intro hp
        have h2 : i = k := Option.some.inj hp
        omega
  · intro k c hk hsig m e hm hpar
    rcases dispatch_getElem?_cases hlen hk with ⟨rfl, rfl⟩ | ⟨hne, hklt, hk2⟩ |
      ⟨hge, u, hu, rfl⟩
    · exact absurd hsig (by simp)
    · rcases dispatch_getElem?_cases hlen hm with ⟨rfl, rfl⟩ | ⟨hne2, hmlt, hm2⟩ |
        ⟨hge2, v, hv, rfl⟩
      · exfalso
        have h2 := inv.sigChild k c hk2 hsig m t hget hpar
        rw [hrun] at h2
        exact Phase.noConfusion h2
      · exact inv.sigChild k c hk2 hsig m e hm2 hpar
      · exact absurd (Option.some.inj hpar).symm hne
    · exact Phase.noConfusion hsig
  · intro hrd c hc
    have hi0 : i ≠ 0 := by
      intro h0
      subst h0
      have h2 := inv.rootSig hrd t hget
      rw [hrun] at h2
      exact Phase.noConfusion h2
    rw [List.getElem?_append_left (by simp [List.length_set]; omega)] at hc
    rw [List.getElem?_set_ne hi0] at hc
    exact inv.rootSig hrd c hc

theorem set2_getElem?_cases {α : Type _} {l : List α} {i j : Nat} {a b c : α} {k : Nat}
    (hi : i < l.length) (hij : i ≠ j)
    (h : ((l.set i a).set j b)[k]? = some c) :
    (k = j ∧ c = b) ∨ (k = i ∧ c = a) ∨ (k ≠ i ∧ k ≠ j ∧ l[k]? = some c) := by
  by_cases hkj : k = j
  · subst hkj
    by_cases hjlen : k < l.length
    · rw [List.getElem?_set_self (by simpa using hjlen)] at h
      exact Or.inl ⟨rfl, (Option.some.inj h).symm⟩
    · exfalso
      have hnone : ((l.set i a).set k b)[k]? = none := by
        apply List.getElem?_eq_none
        simp only [List.length_set]
        omega
      rw [hnone] at h
      exact Option.noConfusion h
  · rw [List.getElem?_set_ne (fun h2 => hkj h2.symm)] at h
    by_cases hki : k = i
    · subst hki
      rw [List.getElem?_set_self hi] at h
      exact Or.inr (Or.inl ⟨rfl, (Option.some.inj h).symm⟩)
    · rw [List.getElem?_set_ne (fun h2 => hki h2.symm)] at h
      exact Or.inr (Or.inr ⟨hki, hkj, h⟩)

theorem invA_signalChild {ts : List Task} {rd : Bool} {i j : Nat} {t pt : Task} {p : Nat}
    (inv : InvA ts rd) (hi : ts[i]? = some t) (hip : t.phase = Phase.waiting 0)
    (hpar : t.parent = some j) (hj : ts[j]? = some pt)
    (hjp : pt.phase = Phase.waiting (p + 1)) :
    InvA ((ts.set i { t with phase := Phase.signaled }).set j
      { pt with phase := Phase.waiting p }) rd := by
  have hleni : i < ts.length := getElem?_some_lt hi
  have hji : j < i := inv.parentLt i t j hi hpar
  have hij : i ≠ j := by omega
  have hset1_j : (ts.set i { t with phase := Phase.signaled })[j]? = some pt := by
    rw [List.getElem?_set_ne hij]
    exact hj
  have hpend_j : pendingOf ((ts.set i { t with phase := Phase.signaled }).set j
      { pt with phase := Phase.waiting p }) j = p := by
    have h1 : pendingOf ts j
        = pendingOf (ts.set i { t with phase := Phase.signaled }) j + 1 := by
      apply countP_set_dec (unsig j) ts i _ t hi
      · simp [unsig, hip, hpar]
      · simp [unsig]
    have h2 := inv.pending j pt (p + 1) hj hjp
    have h3 : pendingOf ((ts.set i { t with phase := Phase.signaled }).set j
        { pt with phase := Phase.waiting p }) j
        = pendingOf (ts.set i { t with phase := Phase.signaled }) j := by
      apply countP_set_same (unsig j) _ j _ pt hset1_j
      simp [unsig, hjp]
    omega
  have hpend_other : ∀ k, k ≠ j →
      pendingOf ((ts.set i { t with phase := Phase.signaled }).set j
        { pt with phase := Phase.waiting p }) k = pendingOf ts k := by
    intro k hkj
    have h3 : pendingOf ((ts.set i { t with phase := Phase.signaled }).set j
        { pt with phase := Phase.waiting p }) k
        = pendingOf (ts.set i { t with phase := Phase.signaled }) k := by
      apply countP_set_same (unsig k) _ j _ pt hset1_j
      simp [unsig, hjp]
    have h4 : pendingOf (ts.set i { t with phase := Phase.signaled }) k
        = pendingOf ts k := by
      apply countP_set_same (unsig k) ts i _ t hi
      simp [unsig, hpar, hip, Ne.symm hkj]
    omega
  have hchild_sig : ∀ (m : Nat) (e : Task), ts[m]? = some e → e.parent = some i →
      e.phase = Phase.signaled := by
    intro m e hm hep
    have h0 := inv.pending i t 0 hi hip
    have h1 := pendingOf_eq_zero.mp h0.symm
    exact h1 e (List.getElem?_mem hm) hep
  constructor
  · intro k c q hk hp
    rcases set2_getElem?_cases hleni hij hk with ⟨rfl, rfl⟩ | ⟨rfl, rfl⟩ |
      ⟨hki, hkj, hk2⟩
    · exact inv.parentLt k pt q hj hp
    · exact inv.parentLt k t q hi hp
    · exact inv.parentLt k c q hk2 hp
  · intro k c hk hp
    rcases set2_getElem?_cases hleni hij hk with ⟨rfl, rfl⟩ | ⟨rfl, rfl⟩ |
      ⟨hki, hkj, hk2⟩
    · exact inv.rootIdx k pt hj hp
    · exact inv.rootIdx k t hi hp
    · exact inv.rootIdx k c hk2 hp
  · intro k c q hk hp
    rcases set2_getElem?_cases hleni hij hk with ⟨rfl, rfl⟩ | ⟨rfl, rfl⟩ |
      ⟨hki, hkj, hk2⟩
    · have hp0 : Phase.waiting p = Phase.waiting q := hp
      injection hp0 with hp0
      subst hp0
      exact hpend_j.symm
    · exact absurd hp (by simp)
    · rw [hpend_other k hkj]
      exact inv.pending k c q hk2 hp
  · intro k c hk hcrun m e hm
    rcases set2_getElem?_cases hleni hij hk with ⟨rfl, rfl⟩ | ⟨rfl, rfl⟩ |
      ⟨hki, hkj, hk2⟩
    · exact absurd hcrun (by simp)
    · exact absurd hcrun (by simp)
    · rcases set2_getElem?_cases hleni hij hm with ⟨rfl, rfl⟩ | ⟨rfl, rfl⟩ |
        ⟨hmi, hmj, hm2⟩
      · exact inv.runNoChild k c hk2 hcrun m pt hj
      · exact inv.runNoChild k c hk2 hcrun m t hi
      · exact inv.runNoChild k c hk2 hcrun m e hm2
  · intro k c hk hsig m e hm hep
    rcases set2_getElem?_cases hleni hij hk with ⟨rfl, rfl⟩ | ⟨rfl, rfl⟩ |
      ⟨hki, hkj, hk2⟩
    · exact absurd hsig (by simp)
    · -- the newly signaled task `i = k`; its children were all signaled already
      rcases set2_getElem?_cases hleni hij hm with ⟨rfl, rfl⟩ | ⟨rfl, rfl⟩ |
        ⟨hmi, hmj, hm2⟩
      · -- element `j`, its parent cannot be `i` (indices would cycle)
        exfalso
        have h2 : k < m := inv.parentLt m pt k hj hep
        omega
      · -- element `i` itself cannot be its own child
        exfalso
        have h2 : m < m := inv.parentLt m t m hi hep
        omega
      · exact hchild_sig m e hm2 hep
    · -- an old signaled task keeps all children signaled
      rcases set2_getElem?_cases hleni hij hm with ⟨rfl, rfl⟩ | ⟨rfl, rfl⟩ |
        ⟨hmi, hmj, hm2⟩
      · exfalso
        have h2 := inv.sigChild k c hk2 hsig m pt hj hep
        rw [hjp] at h2
        exact Phase.noConfusion h2
      · exfalso
        have h2 := inv.sigChild k c hk2 hsig m t hi hep
        rw [hip] at h2
        exact Phase.noConfusion h2
      · exact inv.sigChild k c hk2 hsig m e hm2 hep
  · intro hrd c hc
    have hi0 : i ≠ 0 := by
      intro h0
      subst h0
      have h2 := inv.rootSig hrd t hi
      rw [hip] at h2
      exact Phase.noConfusion h2
    have hj0 : j ≠ 0 := by
      intro h0
      subst h0
      have h2 := inv.rootSig hrd pt hj
      rw [hjp] at h2
      exact Phase.noConfusion h2
    rw [List.getElem?_set_ne hj0, List.getElem?_set_ne hi0] at hc
    exact inv.rootSig hrd c hc

theorem invA_signalRoot {ts : List Task} {rd : Bool} {i : Nat} {t : Task}
    (inv : InvA ts rd) (hi : ts[i]? = some t) (hip : t.phase = Phase.waiting 0)
    (hpar : t.parent = none) :
    InvA (ts.set i { t with phase := Phase.signaled }) true := by
  have hleni : i < ts.length := getElem?_some_lt hi
  have hi0 : i = 0 := inv.rootIdx i t hi hpar
  have hchild_sig : ∀ (m : Nat) (e : Task), ts[m]? = some e → e.parent = some i →
      e.phase = Phase.signaled := by
    intro m e hm hep
    have h0 := inv.pending i t 0 hi hip
    have h1 := pendingOf_eq_zero.mp h0.symm
    exact h1 e (List.getElem?_mem hm) hep
  constructor
  · intro k c q hk hp
    rcases set_getElem?_cases hk hleni with ⟨rfl, rfl⟩ | ⟨hne, hk2⟩
    · exact inv.parentLt k t q hi hp
    · exact inv.parentLt k c q hk2 hp
  · intro k c hk hp
    rcases set_getElem?_cases hk hleni with ⟨rfl, rfl⟩ | ⟨hne, hk2⟩
    · exact inv.rootIdx k t hi hp
    · exact inv.rootIdx k c hk2 hp
  · intro k c q hk hp
    rcases set_getElem?_cases hk hleni with ⟨rfl, rfl⟩ | ⟨hne, hk2⟩
    · exact absurd hp (by simp)
    · have hpend_eq : pendingOf (ts.set i { t with phase := Phase.signaled }) k
          = pendingOf ts k := by
        apply countP_set_same (unsig k) ts i _ t hi
        simp [unsig, hpar]
      rw [hpend_eq]
      exact inv.pending k c q hk2 hp
  · intro k c hk hcrun m e hm
    rcases set_getElem?_cases hk hleni with ⟨rfl, rfl⟩ | ⟨hne, hk2⟩
    · exact absurd hcrun (by simp)
    · rcases set_getElem?_cases hm hleni with ⟨rfl, rfl⟩ | ⟨hne2, hm2⟩
      · exact inv.runNoChild k c hk2 hcrun m t hi
      · exact inv.runNoChild k c hk2 hcrun m e hm2
  · intro k c hk hsig m e hm hep
    rcases set_getElem?_cases hk hleni with ⟨rfl, rfl⟩ | ⟨hne, hk2⟩
    · rcases set_getElem?_cases hm hleni with ⟨rfl, rfl⟩ | ⟨hne2, hm2⟩
      · exfalso
        have h2 : m < m := inv.parentLt m t m hi hep
        omega
      · exact hchild_sig m e hm2 hep
    · rcases set_getElem?_cases hm hleni with ⟨rfl, rfl⟩ | ⟨hne2, hm2⟩
      · exfalso
        have h2 := inv.sigChild k c hk2 hsig m t hi hep
        rw [hip] at h2
        exact Phase.noConfusion h2
      · exact inv.sigChild k c hk2 hsig m e hm2 hep
  · intro _ c hc
    subst hi0
    rw [List.getElem?_set_self hleni] at hc
    have h2 : ({ t with phase := Phase.signaled } : Task) = c := Option.some.inj hc
    rw [← h2]

theorem invA_step {fetch : String → Option (List String)} {s : Config} {i : Nat}
    {s2 : Config} (h : Step fetch s i s2) (inv : InvA s.tasks s.rootDone) :
    InvA s2.tasks s2.rootDone := by
  cases h with
  | leaf t hget hrun hd => exact invA_wait0 inv hget hrun
  | fetchFail t hget hrun hd hf => exact invA_wait0 inv hget hrun
  | fetchOk t urls hget hrun hd hf => exact invA_dispatch inv hget hrun _ _
  | signalChild t j pt p hget hph hpar hgetp hphp =>
    exact invA_signalChild inv hget hph hpar hgetp hphp
  | signalRoot t hget hph hpar => exact invA_signalRoot inv hget hph hpar

theorem invA_reach {fetch : String → Option (List String)} {u : String} {d : Int}
    {s : Config} (h : Reach fetch u d s) : InvA s.tasks s.rootDone := by
  induction h with
  | refl => exact invA_init u d
  | tail h1 h2 ih =>
    rcases h2 with ⟨i, hstep⟩
    exact invA_step hstep ih

theorem nodup_append_single {α : Type _} {l : List α} {a : α} (h : l.Nodup)
    (ha : a ∉ l) : (l ++ [a]).Nodup := by
  refine List.Nodup.append h (by simp) ?_
  intro x hx hxa
  rw [List.mem_singleton] at hxa
  subst hxa
  exact ha hx

theorem invB_of_eq {s s2 : Config} (h : InvB s) (hv : s2.visited = s.visited)
    (ht : s2.tasks = s.tasks) (hf : s2.fetched = s.fetched) : InvB s2 := by
  constructor
  · intro i t hi
    rw [ht] at hi
    rw [hv]
    exact h.taskVisited i t hi
  · intro i j ti tj hi hj hij
    rw [ht] at hi hj
    exact h.urlsDistinct i j ti tj hi hj hij
  · intro u hu
    rw [hf] at hu
    rw [hv]
    exact h.fetchedVisited u hu
  · intro i t hi hr
    rw [ht] at hi
    rw [hf]
    exact h.runNotFetched i t hi hr
  · rw [hf]
    exact h.fetchedNodup

theorem invB_phase_set {s : Config} {i : Nat} {t : Task} {ph : Phase}
    (invb : InvB s) (hget : s.tasks[i]? = some t)
    (hph : ph = Phase.running → t.phase = Phase.running) :
    InvB { s with tasks := s.tasks.set i { t with phase := ph } } := by
  have hlen := getElem?_some_lt hget
  constructor
  · intro k c hk
    rcases set_getElem?_cases hk hlen with ⟨rfl, rfl⟩ | ⟨hne, hk2⟩
    · exact invb.taskVisited k t hget
    · exact invb.taskVisited k c hk2
  · intro k m ck cm hk hm hkm
    rcases set_getElem?_cases hk hlen with ⟨rfl, rfl⟩ | ⟨hne, hk2⟩
    · rcases set_getElem?_cases hm hlen with ⟨h5, h6⟩ | ⟨hne2, hm2⟩
      · exact absurd h5.symm hkm
      · exact invb.urlsDistinct k m t cm hget hm2 hkm
    · rcases set_getElem?_cases hm hlen with ⟨h5, h6⟩ | ⟨hne2, hm2⟩
      · subst h5
        subst h6
        exact invb.urlsDistinct k m ck t hk2 hget hkm
      · exact invb.urlsDistinct k m ck cm hk2 hm2 hkm
  · exact invb.fetchedVisited
  · intro k c hk hr
    rcases set_getElem?_cases hk hlen with ⟨rfl, rfl⟩ | ⟨hne, hk2⟩
    · exact invb.runNotFetched k t hget (hph hr)
    · exact invb.runNotFetched k c hk2 hr
  · exact invb.fetchedNodup

theorem invB_step {fetch : String → Option (List String)} {s : Config} {i : Nat}
    {s2 : Config} (h : Step fetch s i s2) (invb : InvB s) : InvB s2 := by
  cases h with
  | leaf t hget hrun hd =>
    exact invB_phase_set invb hget (fun h2 => Phase.noConfusion h2)
  | fetchFail t hget hrun hd hf =>
    have hlen := getElem?_some_lt hget
    constructor
    · intro k c hk
      rcases set_getElem?_cases hk hlen with ⟨rfl, rfl⟩ | ⟨hne, hk2⟩
      · exact invb.taskVisited k t hget
      · exact invb.taskVisited k c hk2
    · intro k m ck cm hk hm hkm
      rcases set_getElem?_cases hk hlen with ⟨rfl, rfl⟩ | ⟨hne, hk2⟩
      · rcases set_getElem?_cases hm hlen with ⟨h5, h6⟩ | ⟨hne2, hm2⟩
        · exact absurd h5.symm hkm
        · exact invb.urlsDistinct k m t cm hget hm2 hkm
      · rcases set_getElem?_cases hm hlen with ⟨h5, h6⟩ | ⟨hne2, hm2⟩
        · subst h5
          subst h6
          exact invb.urlsDistinct k m ck t hk2 hget hkm
        · exact invb.urlsDistinct k m ck cm hk2 hm2 hkm
    · intro u hu
      rcases List.mem_append.mp hu with hu | hu
      · exact invb.fetchedVisited u hu
      · rw [List.mem_singleton] at hu
        subst hu
        exact invb.taskVisited i t hget
    · intro k c hk hr
      rcases set_getElem?_cases hk hlen with ⟨rfl, rfl⟩ | ⟨hne, hk2⟩
      · exact absurd hr (by simp)
      · intro hmem
        rcases List.mem_append.mp hmem with hm | hm
        · exact invb.runNotFetched k c hk2 hr hm
        · rw [List.mem_singleton] at hm
          exact invb.urlsDistinct k i c t hk2 hget hne hm
    · exact nodup_append_single invb.fetchedNodup (invb.runNotFetched i t hget hrun)
  | fetchOk t urls hget hrun hd hf =>
    have hlen := getElem?_some_lt hget
    have hvis_sub : ∀ x ∈ s.visited, x ∈ (dispatchAcc s.visited urls).1 :=
      fun x hx => dispatchAcc_mem_of_mem urls s.visited x hx
    have hsp_new : ∀ u ∈ (dispatchAcc s.visited urls).2, u ∉ s.visited :=
      dispatchAcc_snd_not_mem urls s.visited
    have hsp_mem : ∀ u ∈ (dispatchAcc s.visited urls).2,
        u ∈ (dispatchAcc s.visited urls).1 :=
      fun u hu => (dispatchAcc_mem_fst urls s.visited u).mpr (Or.inr hu)
    have hsp_nodup := dispatchAcc_snd_nodup urls s.visited
    constructor
    · intro k c hk
      rcases dispatch_getElem?_cases hlen hk with ⟨rfl, rfl⟩ | ⟨hne, hklt, hk2⟩ |
        ⟨hge, u, hu, rfl⟩
      · exact hvis_sub t.url (invb.taskVisited k t hget)
      · exact hvis_sub c.url (invb.taskVisited k c hk2)
      · exact hsp_mem u (List.getElem?_mem hu)
    · intro k m ck cm hk hm hkm
      rcases dispatch_getElem?_cases hlen hk with ⟨rfl, rfl⟩ | ⟨hne, hklt, hk2⟩ |
        ⟨hge, u, hu, rfl⟩
      · rcases dispatch_getElem?_cases hlen hm with ⟨h5, h6⟩ | ⟨hne2, hmlt, hm2⟩ |
          ⟨hge2, v, hv, h6⟩
        · exact absurd h5.symm hkm
        · exact invb.urlsDistinct k m t cm hget hm2 hkm
        · subst h6
          intro he
          have he2 : t.url = v := he
          apply hsp_new v (List.getElem?_mem hv)
          rw [← he2]
          exact invb.taskVisited k t hget
      · rcases dispatch_getElem?_cases hlen hm with ⟨h5, h6⟩ | ⟨hne2, hmlt, hm2⟩ |
          ⟨hge2, v, hv, h6⟩
        · subst h5
          subst h6
          exact invb.urlsDistinct k m ck t hk2 hget hkm
        · exact invb.urlsDistinct k m ck cm hk2 hm2 hkm
        · subst h6
          intro he
          have he2 : ck.url = v := he
          apply hsp_new v (List.getElem?_mem hv)
          rw [← he2]
          exact invb.taskVisited k ck hk2
      · rcases dispatch_getElem?_cases hlen hm with ⟨h5, h6⟩ | ⟨hne2, hmlt, hm2⟩ |
          ⟨hge2, v, hv, h6⟩
        · subst h5
          subst h6
          intro he
          have he2 : u = t.url := he
          apply hsp_new u (List.getElem?_mem hu)
          rw [he2]
          exact invb.taskVisited m t hget
        · intro he
          have he2 : u = cm.url := he
          apply hsp_new u (List.getElem?_mem hu)
          rw [he2]
          exact invb.taskVisited m cm hm2
        · subst h6
          intro he
          have heq : (dispatchAcc s.visited urls).2[k - s.tasks.length]?
              = (dispatchAcc s.visited urls).2[m - s.tasks.length]? := by
            rw [hu, hv]
            simp only [mkChild] at he
            rw [he]
          have hkk := List.getElem?_inj (getElem?_some_lt hu) hsp_nodup heq
          omega
    · intro u hu
      rcases List.mem_append.mp hu with hu | hu
      · exact hvis_sub u (invb.fetchedVisited u hu)
      · rw [List.mem_singleton] at hu
        subst hu
        exact hvis_sub t.url (invb.taskVisited i t hget)
    · intro k c hk hr
      rcases dispatch_getElem?_cases hlen hk with ⟨rfl, rfl⟩ | ⟨hne, hklt, hk2⟩ |
        ⟨hge, u, hu, rfl⟩
      · exact absurd hr (by simp)
      · intro hmem
        rcases List.mem_append.mp hmem with hm | hm
        · exact invb.runNotFetched k c hk2 hr hm
        · rw [List.mem_singleton] at hm
          exact invb.urlsDistinct k i c t hk2 hget hne hm
      · intro hmem
        apply hsp_new u (List.getElem?_mem hu)
        rcases List.mem_append.mp hmem with hm | hm
        · exact invb.fetchedVisited _ hm
        · rw [List.mem_singleton] at hm
          have hm2 : u = t.url := hm
          rw [hm2]
          exact invb.taskVisited i t hget
    · exact nodup_append_single invb.fetchedNodup (invb.runNotFetched i t hget hrun)
  | signalChild t j pt p hget hph hpar hgetp hphp =>
    have hij : i ≠ j := by
      intro he
      subst he
      rw [hget] at hgetp
      have h2 := Option.some.inj hgetp
      subst h2
      rw [hph] at hphp
      injection hphp with h3
      exact Nat.noConfusion h3
    have h1 : InvB { s with tasks := s.tasks.set i { t with phase := Phase.signaled } } :=
      invB_phase_set invb hget (fun h2 => Phase.noConfusion h2)
    have hget2 : (s.tasks.set i { t with phase := Phase.signaled })[j]? = some pt := by
      rw [List.getElem?_set_ne hij]
      exact hgetp
    have h2 := @invB_phase_set { s with tasks := s.tasks.set i { t with phase := Phase.signaled } } j pt (Phase.waiting p) h1 hget2 (fun h3 => Phase.noConfusion h3)
    exact invB_of_eq h2 rfl rfl rfl
  | signalRoot t hget hph hpar =>
    have h1 : InvB { s with tasks := s.tasks.set i { t with phase := Phase.signaled } } :=
      invB_phase_set invb hget (fun h2 => Phase.noConfusion h2)
    exact invB_of_eq h1 rfl rfl rfl

theorem invB_init (url : String) (d : Int) : InvB (init url d) := by
  constructor
  · intro i t hi
    cases i with
    | zero =>
      simp only [init, List.getElem?_cons_zero, Option.some.injEq] at hi
      subst hi
      simp [init]
    | succ n => simp [init] at hi
  · intro i j ti tj hi hj hij
    cases i with
    | zero =>
      cases j with
      | zero => exact absurd rfl hij
      | succ n => simp [init] at hj
    | succ n => simp [init] at hi
  · intro u hu
    simp [init] at hu
  · intro i t hi _
    simp [init]
  · simp [init]

theorem invB_reach {fetch : String → Option (List String)} {u : String} {d : Int}
    {s : Config} (h : Reach fetch u d s) : InvB s := by
  induction h with
  | refl => exact invB_init u d
  | tail h1 h2 ih =>
    rcases h2 with ⟨i, hstep⟩
    exact invB_step hstep ih

theorem invC_of_eq {fetch : String → Option (List String)} {start : String} {d : Int}
    {s s2 : Config} (h : InvC fetch start d s) (hv : s2.visited = s.visited)
    (ht : s2.tasks = s.tasks) (hf : s2.fetched = s.fetched) : InvC fetch start d s2 := by
  constructor
  · intro i t hi
    rw [ht] at hi
    exact h.taskReach i t hi
  · intro u hu
    rw [hv] at hu
    exact h.visitedReach u hu
  · intro u hu
    rw [hf] at hu
    exact h.fetchedReach u hu

theorem invC_phase_set {fetch : String → Option (List String)} {start : String} {d : Int}
    {s : Config} {i : Nat} {t : Task} {ph : Phase}
    (invc : InvC fetch start d s) (hget : s.tasks[i]? = some t) :
    InvC fetch start d { s with tasks := s.tasks.set i { t with phase := ph } } := by
  have hlen := getElem?_some_lt hget
  constructor
  · intro k c hk
    rcases set_getElem?_cases hk hlen with ⟨rfl, rfl⟩ | ⟨hne, hk2⟩
    · exact invc.taskReach k t hget
    · exact invc.taskReach k c hk2
  · exact invc.visitedReach
  · exact invc.fetchedReach

theorem invC_step {fetch : String → Option (List String)} {start : String} {d : Int}
    {s : Config} {i : Nat} {s2 : Config} (h : Step fetch s i s2)
    (invc : InvC fetch start d s) : InvC fetch start d s2 := by
  cases h with
  | leaf t hget hrun hd => exact invC_phase_set invc hget
  | fetchFail t hget hrun hd hf =>
    have hlen := getElem?_some_lt hget
    constructor
    · intro k c hk
      rcases set_getElem?_cases hk hlen with ⟨rfl, rfl⟩ | ⟨hne, hk2⟩
      · exact invc.taskReach k t hget
      · exact invc.taskReach k c hk2
    · exact invc.visitedReach
    · intro u hu
      rcases List.mem_append.mp hu with hu | hu
      · exact invc.fetchedReach u hu
      · rw [List.mem_singleton] at hu
        subst hu
        rcases invc.taskReach i t hget with ⟨k, hr, hdep⟩
        exact ⟨k, hr, by omega⟩
  | fetchOk t urls hget hrun hd hf =>
    have hlen := getElem?_some_lt hget
    rcases invc.taskReach i t hget with ⟨k0, hr0, hdep0⟩
    constructor
    · intro k c hk
      rcases dispatch_getElem?_cases hlen hk with ⟨rfl, rfl⟩ | ⟨hne, hklt, hk2⟩ |
        ⟨hge, u, hu, rfl⟩
      · exact invc.taskReach k t hget
      · exact invc.taskReach k c hk2
      · refine ⟨k0 + 1, ?_, ?_⟩
        · exact ReachIn.succ k0 t.url urls u hr0 hf
            (dispatchAcc_snd_sub urls s.visited u (List.getElem?_mem hu))
        · show t.depth - 1 = d - (k0 + 1 : Nat)
          push_cast
          omega
    · intro u hu
      rcases (dispatchAcc_mem_fst urls s.visited u).mp hu with h3 | h3
      · exact invc.visitedReach u h3
      · right
        refine ⟨k0 + 1, ?_, by omega, by push_cast; omega⟩
        exact ReachIn.succ k0 t.url urls u hr0 hf
          (dispatchAcc_snd_sub urls s.visited u h3)
    · intro u hu
      rcases List.mem_append.mp hu with hu | hu
      · exact invc.fetchedReach u hu
      · rw [List.mem_singleton] at hu
        subst hu
        exact ⟨k0, hr0, by omega⟩
  | signalChild t j pt p hget hph hpar hgetp hphp =>
    have hij : i ≠ j := by
      intro he
      subst he
      rw [hget] at hgetp
      have h2 := Option.some.inj hgetp
      subst h2
      rw [hph] at hphp
      injection hphp with h3
      exact Nat.noConfusion h3
    have h1 : InvC fetch start d { s with tasks := s.tasks.set i { t with phase := Phase.signaled } } :=
      invC_phase_set invc hget
    have hget2 : (s.tasks.set i { t with phase := Phase.signaled })[j]? = some pt := by
      rw [List.getElem?_set_ne hij]
      exact hgetp
    have h2 := @invC_phase_set fetch start d { s with tasks := s.tasks.set i { t with phase := Phase.signaled } } j pt (Phase.waiting p) h1 hget2
    exact invC_of_eq h2 rfl rfl rfl
  | signalRoot t hget hph hpar =>
    have h1 : InvC fetch start d { s with tasks := s.tasks.set i { t with phase := Phase.signaled } } :=
      invC_phase_set invc hget
    exact invC_of_eq h1 rfl rfl rfl

theorem invC_init (fetch : String → Option (List String)) (url : String) (d : Int) :
    InvC fetch url d (init url d) := by
  constructor
  · intro i t hi
    cases i with
    | zero =>
      simp only [init, List.getElem?_cons_zero, Option.some.injEq] at hi
      subst hi
      exact ⟨0, ReachIn.zero, by simp⟩
    | succ n => simp [init] at hi
  · intro u hu
    simp only [init, List.mem_singleton] at hu
    exact Or.inl hu
  · intro u hu
    simp [init] at hu

theorem invC_reach {fetch : String → Option (List String)} {u : String} {d : Int}
    {s : Config} (h : Reach fetch u d s) : InvC fetch u d s := by
  induction h with
  | refl => exact invC_init fetch u d
  | tail h1 h2 ih =>
    rcases h2 with ⟨i, hstep⟩
    exact invC_step hstep ih

theorem visited_clean {fetch : String → Option (List String)} {start : String}
    {d : Int} {s : Config}
    (hclean : ∀ (v : String) (l : List String), fetch v = some l →
      ∀ w ∈ l, isFile w = false)
    (h : Reach fetch start d s) : ∀ u ∈ s.visited, u = start ∨ isFile u = false := by
  induction h with
  | refl =>
    intro u hu
    simp only [init, List.mem_singleton] at hu
    exact Or.inl hu
  | tail h1 h2 ih =>
    rcases h2 with ⟨i, hstep⟩
    intro u hu
    cases hstep with
    | leaf t hget hrun hd => exact ih u hu
    | fetchFail t hget hrun hd hf => exact ih u hu
    | fetchOk t urls hget hrun hd hf =>
      rcases (dispatchAcc_mem_fst urls _ u).mp hu with h3 | h3
      · exact ih u h3
      · exact Or.inr (hclean t.url urls hf u (dispatchAcc_snd_sub urls _ u h3))
    | signalChild t j pt p hget hph hpar hgetp hphp => exact ih u hu
    | signalRoot t hget hph hpar => exact ih u hu

theorem fetchLoop_acc (mx : Int) :
    ∀ (n : Nat) (toks : List Tok), toks.length ≤ n →
    ∀ (b : Bool) (title : String) (urls : List String) (count : Int),
    ∃ acc : List String,
      (fetchLoop mx toks b title urls count).urls = urls ++ acc ∧
      (fetchLoop mx toks b title urls count).count = count + acc.length ∧
      ∀ u ∈ acc, startsHttp u = true ∧ isFile u = false := by
  intro n
  induction n with
  | zero =>
    intro toks hlen b title urls count
    have h0 : toks = [] := List.eq_nil_of_length_eq_zero (Nat.le_zero.mp hlen)
    subst h0
    exact ⟨[], by simp [fetchLoop], by simp [fetchLoop], by simp⟩
  | succ n ih =>
    intro toks hlen b title urls count
    match toks, hlen with
    | [], _ => exact ⟨[], by simp [fetchLoop], by simp [fetchLoop], by simp⟩
    | tok :: rest, hlen =>
      have hrest : rest.length ≤ n := by simp at hlen; omega
      cases b with
      | true =>
        cases tok with
        | text s => simpa [fetchLoop] using ih rest hrest false s urls count
        | start n2 a2 => simpa [fetchLoop] using ih rest hrest false title urls count
        | other => simpa [fetchLoop] using ih rest hrest false title urls count
      | false =>
        cases tok with
        | text s => simpa [fetchLoop] using ih rest hrest false title urls count
        | other => simpa [fetchLoop] using ih rest hrest false title urls count
        | start name attrs =>
          by_cases hname : name = "a"
          · cases hhref : getHref attrs with
            | none =>
              simpa [fetchLoop, hname, hhref, linkAccept] using
                ih rest hrest false title urls count
            | some u =>
              by_cases hhttp : startsHttp u
              · by_cases hcnt : count > mx
                · exact ⟨[], by simp [fetchLoop, hname, hhref, hhttp, hcnt, linkAccept],
                    by simp [fetchLoop, hname, hhref, hhttp, hcnt, linkAccept], by simp⟩
                · by_cases hfile : isFile u
                  · simpa [fetchLoop, hname, hhref, hhttp, hcnt, hfile, linkAccept] using
                      ih rest hrest false title urls count
                  · rcases ih rest hrest false title (urls ++ [u]) (count + 1)
                      with ⟨acc, h1, h2, h3⟩
                    have hstep : fetchLoop mx (Tok.start name attrs :: rest) false title
                        urls count = fetchLoop mx rest false title (urls ++ [u])
                        (count + 1) := by
                      simp [fetchLoop, hname, hhref, hhttp, hcnt, hfile, linkAccept]
                    refine ⟨u :: acc, ?_, ?_, ?_⟩
                    · rw [hstep, h1]
                      simp
                    · rw [hstep, h2]
                      simp
                      omega
                    · intro v hv
                      rcases List.mem_cons.mp hv with hv | hv
                      · subst hv
                        exact ⟨by simpa using hhttp, by simpa using hfile⟩
                      · exact h3 v hv
              · simpa [fetchLoop, hname, hhref, hhttp, linkAccept] using
                  ih rest hrest false title urls count
          · by_cases htitle : name = "title"
            · simpa [fetchLoop, hname, htitle] using ih rest hrest true title urls count
            · simpa [fetchLoop, hname, htitle] using ih rest hrest false title urls count

theorem fetchLoop_count_bound (mx : Int) :
    ∀ (n : Nat) (toks : List Tok), toks.length ≤ n →
    ∀ (b : Bool) (title : String) (urls : List String) (count : Int), count ≤ mx + 1 →
    (fetchLoop mx toks b title urls count).count ≤ mx + 1 := by
  intro n
  induction n with
  | zero =>
    intro toks hlen b title urls count hcount
    have h0 : toks = [] := List.eq_nil_of_length_eq_zero (Nat.le_zero.mp hlen)
    subst h0
    simpa [fetchLoop] using hcount
  | succ n ih =>
    intro toks hlen b title urls count hcount
    match toks, hlen with
    | [], _ => simpa [fetchLoop] using hcount
    | tok :: rest, hlen =>
      have hrest : rest.length ≤ n := by simp at hlen; omega
      cases b with
      | true =>
        cases tok with
        | text s => simpa [fetchLoop] using ih rest hrest false s urls count hcount
        | start n2 a2 =>
          simpa [fetchLoop] using ih rest hrest false title urls count hcount
        | other => simpa [fetchLoop] using ih rest hrest false title urls count hcount
      | false =>
        cases tok with
        | text s => simpa [fetchLoop] using ih rest hrest false title urls count hcount
        | other => simpa [fetchLoop] using ih rest hrest false title urls count hcount
        | start name attrs =>
          by_cases hname : name = "a"
          · cases hhref : getHref attrs with
            | none =>
              simpa [fetchLoop, hname, hhref, linkAccept] using
                ih rest hrest false title urls count hcount
            | some u =>
              by_cases hhttp : startsHttp u
              · by_cases hcnt : count > mx
                · simpa [fetchLoop, hname, hhref, hhttp, hcnt, linkAccept] using hcount
                · by_cases hfile : isFile u
                  · simpa [fetchLoop, hname, hhref, hhttp, hcnt, hfile, linkAccept] using
                      ih rest hrest false title urls count hcount
                  · simpa [fetchLoop, hname, hhref, hhttp, hcnt, hfile, linkAccept] using
                      ih rest hrest false title (urls ++ [u]) (count + 1) (by omega)
              · simpa [fetchLoop, hname, hhref, hhttp, linkAccept] using
                  ih rest hrest false title urls count hcount
          · by_cases htitle : name = "title"
            · simpa [fetchLoop, hname, htitle] using
                ih rest hrest true title urls count hcount
            · simpa [fetchLoop, hname, htitle] using
                ih rest hrest false title urls count hcount

/-! ## Concrete traces used by the witnesses -/

theorem stepA1 : Step fetchNone (init "a" 0) 0 cfgA1 :=
  Step.leaf (init "a" 0) 0 ⟨"a", 0, none, Phase.running⟩ rfl rfl (by decide)

theorem stepA2 : Step fetchNone cfgA1 0 cfgA2 :=
  Step.signalRoot cfgA1 0 ⟨"a", 0, none, Phase.waiting 0⟩ rfl rfl rfl

theorem reachA2 : Reach fetchNone "a" 0 cfgA2 :=
  Relation.ReflTransGen.tail (Relation.ReflTransGen.single ⟨0, stepA1⟩) ⟨0, stepA2⟩

theorem stepB1 : Step fetchAB (init "a" 1) 0 cfgB1 :=
  Step.fetchOk (init "a" 1) 0 ⟨"a", 1, none, Phase.running⟩ ["b"] rfl rfl (by decide)
    (by decide)

theorem reachB1 : Reach fetchAB "a" 1 cfgB1 :=
  Relation.ReflTransGen.single ⟨0, stepB1⟩

theorem stepF1 : Step fetchNone (init "a" 1) 0 cfgF1 :=
  Step.fetchFail (init "a" 1) 0 ⟨"a", 1, none, Phase.running⟩ rfl rfl (by decide) rfl

/-! ## Claim theorems -/

/-- C1: the top-level `Crawl` returns only after receiving on the `done`
channel; whenever the root has signaled that channel (`rootDone`), every
transitively spawned crawl task has emitted its completion signal.  The
fan-in counting (each parent waits for exactly as many signals as
children it spawned) is the `pending` clause of `InvA`, from which this
barrier property follows. -/
theorem crawl_completion_barrier {fetch : String → Option (List String)}
    {url : String} {d : Int} {s : Config} (h : Reach fetch url d s)
    (hdone : s.rootDone = true) :
    ∀ (i : Nat) (t : Task), s.tasks[i]? = some t → t.phase = Phase.signaled := by
  have inv := invA_reach h
  intro i
  induction i using Nat.strong_induction_on with
  | _ i ih =>
    intro t hget
    cases hpar : t.parent with
    | none =>
      have h0 := inv.rootIdx i t hget hpar
      subst h0
      exact inv.rootSig hdone t hget
    | some j =>
      have hj := inv.parentLt i t j hget hpar
      have hjlt : j < s.tasks.length := lt_trans hj (getElem?_some_lt hget)
      obtain ⟨pt, hpt⟩ : ∃ pt, s.tasks[j]? = some pt :=
        ⟨s.tasks[j], List.getElem?_eq_getElem hjlt⟩
      have hpsig := ih j hj pt hpt
      exact inv.sigChild j pt hpt hpsig i t hget hpar

/-- Witness for C1: on the concrete two-step trace of `Crawl("a", 0, ...)`
the theorem yields that the root task has signaled. -/
theorem crawl_completion_barrier_wit :
    ({ url := "a", depth := 0, parent := none, phase := Phase.signaled } : Task).phase
      = Phase.signaled :=
  crawl_completion_barrier reachA2 rfl 0
    { url := "a", depth := 0, parent := none, phase := Phase.signaled } rfl

/-- C2: during one invocation no url is ever passed to `Fetch` twice: the
start url is marked before the root runs, children are spawned only for
urls newly marked under the map token, so the fetch log of every
reachable configuration has no duplicates. -/
theorem crawl_fetch_at_most_once {fetch : String → Option (List String)}
    {url : String} {d : Int} {s : Config} (h : Reach fetch url d s) :
    s.fetched.Nodup :=
  (invB_reach h).fetchedNodup

/-- Witness for C2 on the one-step trace of `Crawl("a", 1, fetchAB)`. -/
theorem crawl_fetch_at_most_once_wit : cfgB1.fetched.Nodup :=
  crawl_fetch_at_most_once reachB1

/-- C3: the traversal never goes beyond the configured depth: every
fetched url lies at some hop distance `k < d` from the start, and every
visited url other than the start was discovered at some hop distance
`0 < k ≤ d` (a task with remaining depth `<= 0` exits without fetching
and children get depth exactly one less, the `InvC` invariant). -/
theorem crawl_depth_bound {fetch : String → Option (List String)}
    {url : String} {d : Int} {s : Config} (h : Reach fetch url d s) :
    (∀ u ∈ s.fetched, ∃ k : Nat, ReachIn fetch url k u ∧ (k : Int) < d) ∧
    (∀ u ∈ s.visited, u = url ∨
      ∃ k : Nat, ReachIn fetch url k u ∧ 0 < (k : Int) ∧ (k : Int) ≤ d) :=
  ⟨(invC_reach h).fetchedReach, (invC_reach h).visitedReach⟩

/-- Witness for C3: on the one-step trace of `Crawl("a", 1, fetchAB)`, the
fetched url `a` lies at distance `0 < 1`. -/
theorem crawl_depth_bound_wit :
    ∃ k : Nat, ReachIn fetchAB "a" k "a" ∧ (k : Int) < 1 :=
  (crawl_depth_bound reachB1).1 "a" (by decide)

/-- C4 counterexample: with maximum `N = 0`, a page with two (hence more
than `N`) non-file http links, and a zero counter, the number of
accepted links is 1, which exceeds `N`: the abort condition
`countCrawled > *maxURLS` is strict, so up to `N + 1` links are
accepted, not `N`. -/
theorem fetch_cap_cex :
    (fetchLoop 0 pageTwoLinks false "" [] 0).urls = ["http://a"] ∧
    ¬((fetchLoop 0 pageTwoLinks false "" [] 0).urls.length ≤ 0) := by decide

/-- C4 amended: for maximum `N ≥ 0` and a single page starting from a zero
counter, the number of accepted links does not exceed `N + 1`. -/
theorem fetch_cap_bound (mx : Int) (hmx : 0 ≤ mx) (toks : List Tok) :
    ((fetchLoop mx toks false "" [] 0).urls.length : Int) ≤ mx + 1 := by
  rcases fetchLoop_acc mx toks.length toks (le_refl _) false "" [] 0 with
    ⟨acc, h1, h2, h3⟩
  have hb := fetchLoop_count_bound mx toks.length toks (le_refl _) false "" [] 0
    (by omega)
  rw [h1]
  rw [h2] at hb
  simp only [List.nil_append, List.length_append] at hb ⊢
  omega

/-- Witness for C4 amended at maximum 0 on the two-link page. -/
theorem fetch_cap_bound_wit :
    ((fetchLoop 0 pageTwoLinks false "" [] 0).urls.length : Int) ≤ 0 + 1 :=
  fetch_cap_bound 0 (by decide) pageTwoLinks

/-- C5 counterexample: the same non-file http url appearing twice on one
page increments the global counter twice (and is appended twice): the
counter counts accepted link occurrences, not newly discovered urls; the
deduplication happens only later, in the orchestrator. -/
theorem counter_increment_cex :
    (fetchLoop 150 pageDupLink false "" [] 0).count = 2 ∧
    (fetchLoop 150 pageDupLink false "" [] 0).urls = ["http://a", "http://a"] := by
  decide

/-- C5 amended: the global counter is incremented exactly once per accepted
link occurrence (each scanned http-prefixed non-file href), regardless
of whether the url was already discovered. -/
theorem counter_per_accepted (mx : Int) (toks : List Tok) (title : String)
    (urls : List String) (count : Int) :
    ∃ acc : List String,
      (fetchLoop mx toks false title urls count).urls = urls ++ acc ∧
      (fetchLoop mx toks false title urls count).count = count + acc.length ∧
      ∀ u ∈ acc, startsHttp u = true ∧ isFile u = false :=
  fetchLoop_acc mx toks.length toks (le_refl _) false title urls count

/-- C6: when `c.Fetch(url)` fails, the acting task emits only its
completion signal: the step leaves the visited map, every other task,
and the root-done flag unchanged, spawns nobody, and moves the task to
`waiting 0`, whose only remaining action is its `done <- true`; no error
value exists anywhere in the configuration to propagate. -/
theorem fetch_error_is_leaf {fetch : String → Option (List String)} {s : Config}
    {i : Nat} {s2 : Config} {t : Task} (hstep : Step fetch s i s2)
    (hget : s.tasks[i]? = some t) (hrun : t.phase = Phase.running)
    (hd : 0 < t.depth) (hf : fetch t.url = none) :
    s2.visited = s.visited ∧ s2.tasks.length = s.tasks.length ∧
    s2.tasks[i]? = some { t with phase := Phase.waiting 0 } ∧
    (∀ k : Nat, k ≠ i → s2.tasks[k]? = s.tasks[k]?) ∧
    s2.rootDone = s.rootDone ∧ s2.fetched = s.fetched ++ [t.url] := by
  cases hstep with
  | leaf t2 hget2 hrun2 hd2 =>
    rw [hget] at hget2
    have he := Option.some.inj hget2
    subst he
    exact absurd hd (by omega)
  | fetchFail t2 hget2 hrun2 hd2 hf2 =>
    rw [hget] at hget2
    have he := Option.some.inj hget2
    subst he
    refine ⟨rfl, by simp [failCfg], ?_, ?_, rfl, rfl⟩
    · show (s.tasks.set i { t with phase := Phase.waiting 0 })[i]?
        = some { t with phase := Phase.waiting 0 }
      rw [List.getElem?_set_self (getElem?_some_lt hget)]
    · intro k hk
      show (s.tasks.set i { t with phase := Phase.waiting 0 })[k]? = s.tasks[k]?
      rw [List.getElem?_set_ne (fun h2 => hk h2.symm)]
  | fetchOk t2 urls hget2 hrun2 hd2 hf2 =>
    rw [hget] at hget2
    have he := Option.some.inj hget2
    subst he
    rw [hf] at hf2
    exact Option.noConfusion hf2
  | signalChild t2 j pt p hget2 hph hpar hgetp hphp =>
    rw [hget] at hget2
    have he := Option.some.inj hget2
    subst he
    rw [hrun] at hph
    exact Phase.noConfusion hph
  | signalRoot t2 hget2 hph hpar =>
    rw [hget] at hget2
    have he := Option.some.inj hget2
    subst he
    rw [hrun] at hph
    exact Phase.noConfusion hph

/-- Witness for C6 on the concrete failing fetch of `Crawl("a", 1,
fetchNone)`: visited unchanged, fetch logged. -/
theorem fetch_error_is_leaf_wit :
    cfgF1.visited = (init "a" 1).visited ∧
    cfgF1.fetched = (init "a" 1).fetched ++ ["a"] := by
  have h := fetch_error_is_leaf stepF1 rfl rfl (by decide) rfl
  exact ⟨h.1, h.2.2.2.2.2⟩

/-- C7 counterexample: a crawl task that fetches a page also mutates shared
state other than the visited set, outside any guard: the global counter
`countCrawled` changes from 0 to 1 and the shared results map `f`
receives an entry. -/
theorem task_side_effects_cex :
    (fetchGo 150 (some pageOneLink) 0).count = 1 ∧
    (fetchGo 150 (some pageOneLink) 0).stored = some ("", ["http://b"]) := by decide

/-- C7 amended: within the orchestrator, the visited set is mutated only
inside the guarded dispatch section: any step that changes the visited
map is a successful-fetch dispatch step; however a task additionally
mutates the global crawl counter and the shared results map through
`Fetch` (see the counterexample), so those are further side effects. -/
theorem visited_mutated_only_in_dispatch {fetch : String → Option (List String)}
    {s : Config} {i : Nat} {s2 : Config} (hstep : Step fetch s i s2)
    (hch : s2.visited ≠ s.visited) :
    ∃ (t : Task) (urls : List String), s.tasks[i]? = some t ∧
      t.phase = Phase.running ∧ 0 < t.depth ∧ fetch t.url = some urls ∧
      s2 = dispatchCfg s i t urls := by
  cases hstep with
  | leaf t hget hrun hd => exact absurd rfl hch
  | fetchFail t hget hrun hd hf => exact absurd rfl hch
  | fetchOk t urls hget hrun hd hf => exact ⟨t, urls, hget, hrun, hd, hf, rfl⟩
  | signalChild t j pt p hget hph hpar hgetp hphp => exact absurd rfl hch
  | signalRoot t hget hph hpar => exact absurd rfl hch

/-- Witness for C7 amended on the dispatch step of `Crawl("a", 1,
fetchAB)`, which does change the visited map. -/
theorem visited_mutated_only_in_dispatch_wit :
    ∃ (t : Task) (urls : List String), (init "a" 1).tasks[0]? = some t ∧
      t.phase = Phase.running ∧ 0 < t.depth ∧ fetchAB t.url = some urls ∧
      cfgB1 = dispatchCfg (init "a" 1) 0 t urls :=
  visited_mutated_only_in_dispatch stepB1 (by decide)

/-- C8: a url ending in one of the filtered file suffixes is never
returned by `Fetch` as a candidate outbound link (it never enters the
accepted url list), and consequently, for any fetcher that filters file
urls the way the concrete one does, such a url is never discovered by
the crawl: it can appear in the visited set only as the start url. -/
theorem file_suffix_never_candidate :
    ∀ sfx ∈ files, ∀ u : String, hasSuffixGo u sfx = true →
      (∀ (mx count : Int) (toks : List Tok),
        u ∉ (fetchLoop mx toks false "" [] count).urls) ∧
      (∀ (fetch : String → Option (List String)) (start : String) (d : Int)
        (s : Config),
        (∀ (v : String) (l : List String), fetch v = some l →
          ∀ w ∈ l, isFile w = false) →
        Reach fetch start d s → u ∈ s.visited → u = start) := by
  intro sfx hsfx u hsuffix
  have hfile : isFile u = true := by
    rw [isFile, List.any_eq_true]
    exact ⟨sfx, hsfx, hsuffix⟩
  constructor
  · intro mx count toks hmem
    rcases fetchLoop_acc mx toks.length toks (le_refl _) false "" [] count with
      ⟨acc, h1, h2, h3⟩
    rw [h1] at hmem
    simp only [List.nil_append] at hmem
    have h4 := (h3 u hmem).2
    rw [hfile] at h4
    exact Bool.noConfusion h4
  · intro fetch start d s hclean hreach hmem
    rcases visited_clean hclean hreach u hmem with h | h
    · exact h
    · rw [hfile] at h
      exact Bool.noConfusion h

/-- Witness for C8 at the suffix `.pdf`: the pdf link of the concrete page
is not among the candidates. -/
theorem file_suffix_never_candidate_wit :
    "http://x.pdf" ∉ (fetchLoop 150 pagePdfLink false "" [] 0).urls :=
  (file_suffix_never_candidate ".pdf" (by decide) "http://x.pdf" (by decide)).1 150 0
    pagePdfLink

/-- C9 counterexample: the href `httpdocs/a` contains no colon, hence no
scheme: it is a relative link; it nevertheless begins with the four
characters `http`, so `Fetch` accepts it as a candidate and counts it,
refuting that every relative link is silently dropped. -/
theorem http_filter_cex :
    (fetchLoop 150 pageRelLink false "" [] 0).urls = ["httpdocs/a"] ∧
    (fetchLoop 150 pageRelLink false "" [] 0).count = 1 ∧
    ':' ∉ "httpdocs/a".toList := by decide

/-- C9 amended: a page link is considered a candidate exactly when its
href begins with the literal characters `http`: every accepted url
begins with `http`, and an `a` tag whose href does not is dropped
without touching the url list or the counter.  Whether the href is
relative or of another scheme is never examined, so an href beginning
with the characters `http` is accepted even when relative. -/
theorem http_filter (mx count : Int) (toks : List Tok) :
    (∀ u ∈ (fetchLoop mx toks false "" [] count).urls, startsHttp u = true) ∧
    (∀ (attrs : List (String × String)) (u : String) (rest : List Tok)
      (title : String) (urls : List String),
      getHref attrs = some u → startsHttp u = false →
      fetchLoop mx (Tok.start "a" attrs :: rest) false title urls count
        = fetchLoop mx rest false title urls count) := by
  constructor
  · intro u hu
    rcases fetchLoop_acc mx toks.length toks (le_refl _) false "" [] count with
      ⟨acc, h1, h2, h3⟩
    rw [h1] at hu
    simp only [List.nil_append] at hu
    exact (h3 u hu).1
  · intro attrs u rest title urls hhref hhttp
    simp [fetchLoop, linkAccept, hhref, hhttp]

/-- Witness for C9 amended: a single `ftp` link is dropped, leaving the
loop in its initial state. -/
theorem http_filter_wit :
    fetchLoop 150 [Tok.start "a" [("href", "ftp://x")]] false "" [] 0
      = fetchLoop 150 [] false "" [] 0 :=
  (http_filter 150 0 []).2 [("href", "ftp://x")] "ftp://x" [] "" [] (by decide)
    (by decide)

/-- C10: when the token loop aborts because the global counter exceeded
the maximum, `Fetch` returns an error with a nil url list, but still
records the partially collected (title, accepted links) pair in the
shared results map before returning. -/
theorem abort_stores_result (mx count : Int) (toks : List Tok)
    (habort : (fetchLoop mx toks false "" [] count).aborted = true) :
    fetchGo mx (some toks) count =
      ⟨none, some ((fetchLoop mx toks false "" [] count).title,
        (fetchLoop mx toks false "" [] count).urls),
        (fetchLoop mx toks false "" [] count).count⟩ := by
  simp [fetchGo, habort]

/-- Witness for C10: with counter 150 and maximum 150, a two-link page
accepts the first link, aborts on the second, and the stored result
keeps the accepted link while the returned url list is nil. -/
theorem abort_stores_result_wit :
    fetchGo 150 (some pageTwoLinks) 150 = ⟨none, some ("", ["http://a"]), 151⟩ := by
  rw [abort_stores_result 150 150 pageTwoLinks (by decide)]
  decide

end GoCrawler
